import Mathlib

/-!
Verification development for the `entity_data` crate: archetype slot
allocation (`src/archetype/entities.rs`), the legacy column store
(`src/archetype.rs`), the archetype registry (`src/entity_storage.rs`),
component iteration (`src/archetype/component.rs`), and the system
scheduler (`src/system.rs`).

Rust data is embedded shallowly:
* `bitvec::vec::BitVec` becomes `List Bool` (bit `i` = element `i`);
* `bit_set::BitSet` becomes `Finset ℕ`;
* `HashMap` becomes an association list `List (κ × β)` (ahash only picks
  buckets, it never changes map semantics);
* `u32` casts (`as u32`) become `% 2 ^ 32`;
* a Rust `panic!` becomes `none` / `Except.error`.

The file is organized as: all definitions first, then all theorems.
-/

namespace EntityData

/-! ## Definitions -/

/-! ### Bit-vector helpers (embedding of `bitvec` operations used by the code) -/

/-- Number of set bits: `BitVec::count_ones`. -/
def countOnes : List Bool → ℕ
  | [] => 0
  | true :: t => countOnes t + 1
  | false :: t => countOnes t

/-- Index of the first clear bit: `self.occupied_ids.iter_zeros().next()`. -/
def firstZero : List Bool → Option ℕ
  | [] => none
  | true :: t => (firstZero t).map (· + 1)
  | false :: _ => some 0

/-- Indices of set bits in ascending order: `self.occupied_ids.iter_ones()`. -/
def iterOnes : List Bool → List ℕ
  | [] => []
  | true :: t => 0 :: (iterOnes t).map (· + 1)
  | false :: t => (iterOnes t).map (· + 1)

/-! ### `ArchetypeEntities` (src/archetype/entities.rs)

`occupied_ids : BitVec` is `List Bool`.  `allocate_slot` returns the
allocated slot id (an `ArchEntityId`, i.e. `u32`, hence the `% 2 ^ 32`
from the `as ArchEntityId` casts) together with the updated bit vector,
or `none` for the out-of-slots panic. -/

/-- Value of `BitSlice::<usize, Lsb0>::MAX_BITS` on the 64-bit target.
Its exact value is immaterial to every statement below: any value
`≥ 2 ^ 32` behaves identically. -/
def maxBitvecBits : ℕ := 2 ^ 61 - 1

/-- `ArchetypeEntities::MAX_SLOTS = u32::MAX as usize - 1`. -/
def maxSlots : ℕ := 2 ^ 32 - 2

/-- Embedding of `const_min`: `[a, b][(a < b) as usize]`.  Note that the
index is `1` (selecting `b`) exactly when `a < b`, so this expression
selects the larger argument, not the smaller one. -/
def constMin (a b : ℕ) : ℕ := [a, b].getD (if a < b then 1 else 0) 0

/-- `ArchetypeEntities::MAX_ENTITIES = const_min(MAX_SLOTS, MAX_BITVEC_BITS)`. -/
def maxEntities : ℕ := constMin maxSlots maxBitvecBits

/-- Body of `ArchetypeEntities::allocate_slot`, parameterized by the
capacity constant compared against `occupied_ids.len()`. -/
def allocateSlotCore (cap : ℕ) (bv : List Bool) : Option (ℕ × List Bool) :=
  match firstZero bv with
  | some freeSlot => some (freeSlot % 2 ^ 32, bv.set freeSlot true)
  | none =>
      if bv.length < cap then
        some (bv.length % 2 ^ 32, bv ++ [true])
      else
        none

/-- `ArchetypeEntities::allocate_slot` (the out-of-slots panic becomes
`none`). -/
def allocate_slot (bv : List Bool) : Option (ℕ × List Bool) :=
  allocateSlotCore maxEntities bv

/-- `ArchetypeEntities::free`: returns the previous occupancy bit
(`BitVec::replace`) and the updated bit vector. -/
def free_slot (bv : List Bool) (entity_id : ℕ) : Bool × List Bool :=
  if bv.length ≤ entity_id then
    (false, bv)
  else
    (bv.getD entity_id false, bv.set entity_id false)

/-- `ArchetypeEntities::contains`. -/
def containsSlot (bv : List Bool) (entity_id : ℕ) : Bool :=
  bv.getD entity_id false

/-- `ArchetypeEntities::count` (`count_ones`). -/
def countSlots (bv : List Bool) : ℕ := countOnes bv

/-- Specification-side lowest free slot, written the way the spec reads:
the least index below the high-water mark whose bit is clear. -/
def lowestFreeSpec (bv : List Bool) : Option ℕ :=
  (List.range bv.length).find? (fun j => bv.getD j true == false)

/-! ### Legacy `Archetype` (src/archetype.rs)

State: `free_slots : BitSet` (a `Finset ℕ` of freed slot ids) and
`total_slot_count : u32`.  The component byte columns are irrelevant to
the claims below; what matters for drop accounting is each
`ComponentInfo.needs_drop` flag, kept here as `compNeedsDrop`. -/

structure ArchetypeO where
  freeSlots : Finset ℕ
  totalSlotCount : ℕ
  compNeedsDrop : List Bool
  deriving DecidableEq

/-- `components_need_drops` as computed by `Archetype::new`
(`comp_infos.iter().any(|info| info.needs_drop)`). -/
def componentsNeedDrops (a : ArchetypeO) : Bool :=
  a.compNeedsDrop.any (fun nd => nd)

/-- `Archetype::MAX_ENTITIES = u32::MAX - 1`. -/
def archetypeMaxEntities : ℕ := 2 ^ 32 - 2

/-- `Archetype::allocate_slot`: reuse the first (lowest — `BitSet`
iteration is ascending) free slot if any, else grow
`total_slot_count`; the panic becomes `none`. -/
def allocO (a : ArchetypeO) : Option (ℕ × ArchetypeO) :=
  match a.freeSlots.min with
  | some freeSlot =>
      some (freeSlot % 2 ^ 32, { a with freeSlots := a.freeSlots.erase freeSlot })
  | none =>
      if a.totalSlotCount < archetypeMaxEntities then
        some (a.totalSlotCount, { a with totalSlotCount := a.totalSlotCount + 1 })
      else
        none

/-- `Archetype::is_present`. -/
def isPresentO (a : ArchetypeO) (entity_id : ℕ) : Bool :=
  decide (entity_id < a.totalSlotCount) && ! decide (entity_id ∈ a.freeSlots)

/-- `Archetype::remove`, drop-instrumented.  Returns the `bool` result,
the new state, and the number of `drop_func` invocations the call
performs (one per `needs_drop` component when the guard passes).

The embedded guard is literally the source's
`is_present &= !self.free_slots.insert(entity_id as usize)` with
`BitSet::insert` returning `true` when the value was *newly* inserted,
so the guard holds exactly when `entity_id` was already freed. -/
def removeO (a : ArchetypeO) (entity_id : ℕ) : Bool × ArchetypeO × ℕ :=
  let insertedNew := decide (entity_id ∉ a.freeSlots)
  let is_present := decide (entity_id < a.totalSlotCount) && ! insertedNew
  let a' := { a with freeSlots := insert entity_id a.freeSlots }
  let drops :=
    if is_present && componentsNeedDrops a then a.compNeedsDrop.count true else 0
  (is_present, a', drops)

/-- `Archetype::len`: `total_slot_count - free_slots.len()`. -/
def lenO (a : ArchetypeO) : ℕ := a.totalSlotCount - a.freeSlots.card

/-- Drop-function invocations performed on slot `s` by
`impl Drop for Archetype`: every `needs_drop` column drops the cell of
every slot below `total_slot_count` that is not in `free_slots`. -/
def destructionDropsOnSlot (a : ArchetypeO) (s : ℕ) : ℕ :=
  if componentsNeedDrops a && decide (s < a.totalSlotCount)
      && ! decide (s ∈ a.freeSlots) then
    a.compNeedsDrop.count true
  else 0

/-! ### Component iteration (src/archetype/component.rs)

`ComponentStorage::iter` builds `Iter { entities_iter: entities.iter(), .. }`
whose `next` maps each occupied slot (from `iter_ones`) through
`get_unchecked`.  A column of `C`-values is a `List α`; the cell read by
`get_unchecked` at slot `i` is `col.get? i`. -/

/-- Slots visited by `Iter`, in order: the occupied slots ascending. -/
def componentIterSlots (bv : List Bool) : List ℕ := iterOnes bv

/-- Entries yielded by `ComponentStorage::iter` over column `col`. -/
def componentIter {α : Type} (col : List α) (bv : List Bool) : List (Option α) :=
  (componentIterSlots bv).map (fun i => col.get? i)

/-! ### `SystemAccess` accessors (src/system.rs)

`global_components` maps a component `TypeId` to the `mutable` flag of
its `GenericComponentGlobalAccess`.  The `RefCell` borrow flags only
matter for `AlreadyBorrowed`, which none of the claims below concerns;
each acquisition below is the first borrow of a fresh cell. -/

/-- Association-list lookup standing in for `HashMap::get` /
`hash_map::Entry` probing. -/
def alookup {κ β : Type} [DecidableEq κ] : List (κ × β) → κ → Option β
  | [], _ => none
  | (k, v) :: t, ty => if k = ty then some v else alookup t ty

/-- Error kinds surfaced by the accessor panics: `ComponentNotDeclared`
is the "Component not available" panic, `ImmutableDeclared` the
"Component is not allowed to be mutated" panic. -/
inductive AccessError where
  | componentNotDeclared
  | immutableDeclared
  deriving DecidableEq

structure SystemAccessM where
  global_components : List (ℕ × Bool)
  allowed_all_components : Bool
  deriving DecidableEq

/-- `SystemAccess::get_component`: an occupied entry is returned as-is; a
vacant entry is lazily created with `mutable: true` when
`allowed_all_components` holds, and is `None` otherwise. -/
def get_component (acc : SystemAccessM) (ty : ℕ) : Option (Bool × SystemAccessM) :=
  match alookup acc.global_components ty with
  | some m => some (m, acc)
  | none =>
      if acc.allowed_all_components then
        some (true, { acc with global_components := acc.global_components ++ [(ty, true)] })
      else
        none

/-- `SystemAccess::component`: panics with "Component not available" when
`get_component` is `None`. -/
def componentAcq (acc : SystemAccessM) (ty : ℕ) : Except AccessError SystemAccessM :=
  match get_component acc ty with
  | none => Except.error AccessError.componentNotDeclared
  | some (_, acc') => Except.ok acc'

/-- `SystemAccess::component_mut`: additionally panics with "Component is
not allowed to be mutated" when the entry's `mutable` flag is false. -/
def componentMutAcq (acc : SystemAccessM) (ty : ℕ) : Except AccessError SystemAccessM :=
  match get_component acc ty with
  | none => Except.error AccessError.componentNotDeclared
  | some (m, acc') =>
      if m then Except.ok acc' else Except.error AccessError.immutableDeclared

/-- `EntityStorage::get_system_data`: `global_components` is
pre-populated with exactly the system's declared components and their
mutability; `allowed_all_components` is false. -/
def get_system_data (components : List (ℕ × Bool)) : SystemAccessM :=
  { global_components := components, allowed_all_components := false }

/-- `EntityStorage::access`: empty map, `allowed_all_components` true. -/
def accessAll : SystemAccessM :=
  { global_components := [], allowed_all_components := true }

/-- Invariant of every `SystemAccess` reachable from
`EntityStorage::access()`: all lazily registered entries are mutable. -/
def lazilyTrue (acc : SystemAccessM) : Prop :=
  acc.allowed_all_components = true ∧ ∀ p ∈ acc.global_components, p.2 = true

/-! ### `ArchetypeLayout` and the archetype registry (src/entity_storage.rs)

Component `TypeId`s are `ℕ`.  `ArchetypeLayout::new` sorts the id
vector (`sort_unstable`); `PartialEq` compares only the sorted vectors.
The ahash `hash_val` is kept as an opaque field: equality never reads
it, and the association-list map model does not bucket. -/

/-- Insertion step of the sort embedding `type_ids.sort_unstable()`. -/
def insertSorted (x : ℕ) : List ℕ → List ℕ
  | [] => [x]
  | y :: t => if x ≤ y then x :: y :: t else y :: insertSorted x t

/-- Embedding of `type_ids.sort_unstable()` (insertion sort — on `ℕ`
keys stability is unobservable). -/
def sortIds (l : List ℕ) : List ℕ := l.foldr insertSorted []

structure ArchetypeLayoutM where
  sorted_type_ids : List ℕ
  hash_val : ℕ
  deriving DecidableEq

/-- `ArchetypeLayout::new`: sorts the ids; the ahash value is abstracted
as a parameter since nothing semantic ever reads it. -/
def layoutNew (type_ids : List ℕ) (h : ℕ) : ArchetypeLayoutM :=
  { sorted_type_ids := sortIds type_ids, hash_val := h }

/-- `impl PartialEq for ArchetypeLayout`: compares only the sorted
vectors, ignoring `hash_val`. -/
def layoutEq (a b : ArchetypeLayoutM) : Bool :=
  a.sorted_type_ids == b.sorted_type_ids

/-- One `ArchetypeStorage`: its components' `TypeId`s (declaration
order, from the state metadata) and its `ArchetypeEntities` bit vector.
The byte columns carry no information for the claims below. -/
structure ArchetypeStorageM where
  compTypeIds : List ℕ
  entities : List Bool
  deriving DecidableEq

/-- `EntityStorage`.  The two index maps are keyed by state `TypeId` and
by (the equality class of) `ArchetypeLayout`, i.e. the sorted id
vector. -/
structure EntityStorageM where
  archetypes : List ArchetypeStorageM
  archetypes_by_types : List (ℕ × ℕ)
  archetypes_by_layout : List (List ℕ × ℕ)
  component_to_archetypes_map : List (ℕ × List ℕ)
  deriving DecidableEq

/-- `EntityStorage::new`. -/
def emptyStorage : EntityStorageM := ⟨[], [], [], []⟩

/-- `self.component_to_archetypes_map.entry(ty).or_insert(default).push(id)`. -/
def compMapPush (m : List (ℕ × List ℕ)) (ty archId : ℕ) : List (ℕ × List ℕ) :=
  match m with
  | [] => [(ty, [archId])]
  | (k, v) :: t =>
      if k = ty then (k, v ++ [archId]) :: t else (k, v) :: compMapPush t ty archId

/-- The `e.insert(arch_id)` on the vacant `archetypes_by_types` entry. -/
def recordStateType (st : EntityStorageM) (stateTy archId : ℕ) : EntityStorageM :=
  { st with archetypes_by_types := (stateTy, archId) :: st.archetypes_by_types }

/-- The vacant-layout branch of `get_or_create_archetype`: append a new
`ArchetypeStorage::new(meta)` (with `newArchId = archetypes.len()`),
register its layout, record the state type, and push the new archetype
id into the reverse component index for each of its components. -/
def createArchetype (st : EntityStorageM) (stateTy : ℕ) (compTys : List ℕ) :
    EntityStorageM :=
  { archetypes := st.archetypes ++ [⟨compTys, []⟩],
    archetypes_by_types := (stateTy, st.archetypes.length) :: st.archetypes_by_types,
    archetypes_by_layout :=
      (sortIds compTys, st.archetypes.length) :: st.archetypes_by_layout,
    component_to_archetypes_map :=
      compTys.foldl (fun m t => compMapPush m t st.archetypes.length)
        st.component_to_archetypes_map }

/-- `EntityStorage::get_or_create_archetype`: fast path by state type;
on a miss, intern the sorted layout, creating and appending a new
`ArchetypeStorage` (and updating the reverse component index) only when
the layout is new too. -/
def get_or_create_archetype (st : EntityStorageM) (stateTy : ℕ) (compTys : List ℕ) :
    ℕ × EntityStorageM :=
  match alookup st.archetypes_by_types stateTy with
  | some archId => (archId, st)
  | none =>
      match alookup st.archetypes_by_layout (sortIds compTys) with
      | some archId => (archId, recordStateType st stateTy archId)
      | none => (st.archetypes.length, createArchetype st stateTy compTys)

/-- Modelled from the spec: `ArchetypeStorage::add_entity` is not under
`src/` (only its callers and the slot allocator are); per spec §4.2 it
allocates a slot through the archetype's `ArchetypeEntities`
(`allocate_slot` above, which is under `src/`) and copies the state's
component bytes into the columns. -/
def arch_add_entity (arch : ArchetypeStorageM) : Option (ℕ × ArchetypeStorageM) :=
  match allocate_slot arch.entities with
  | some (slot, bv) => some (slot, { arch with entities := bv })
  | none => none

/-- `EntityStorage::add`: get-or-create the archetype, add the entity,
wrap `(arch_id as u32, slot)` as the `EntityId`. -/
def storage_add (st : EntityStorageM) (stateTy : ℕ) (compTys : List ℕ) :
    Option ((ℕ × ℕ) × EntityStorageM) :=
  match (get_or_create_archetype st stateTy compTys).2.archetypes.get?
      (get_or_create_archetype st stateTy compTys).1 with
  | none => none
  | some arch =>
      match arch_add_entity arch with
      | none => none
      | some (slot, arch') =>
          some (((get_or_create_archetype st stateTy compTys).1 % 2 ^ 32, slot),
            { (get_or_create_archetype st stateTy compTys).2 with
                archetypes :=
                  (get_or_create_archetype st stateTy compTys).2.archetypes.set
                    (get_or_create_archetype st stateTy compTys).1 arch' })

/-- Modelled from the spec: `ArchetypeStorage::remove` is not under
`src/`; per spec §4.2 it runs the drop function of each drop-requiring
component of an occupied slot and frees the slot, returning whether the
slot was occupied — the return value and occupancy update are exactly
`ArchetypeEntities::free` (which is under `src/`). -/
def arch_remove (arch : ArchetypeStorageM) (slot : ℕ) : Bool × ArchetypeStorageM :=
  ((free_slot arch.entities slot).1,
   { arch with entities := (free_slot arch.entities slot).2 })

/-- `EntityStorage::remove`. -/
def storage_remove (st : EntityStorageM) (e : ℕ × ℕ) : Bool × EntityStorageM :=
  match st.archetypes.get? e.1 with
  | none => (false, st)
  | some arch =>
      ((arch_remove arch e.2).1,
       { st with archetypes := st.archetypes.set e.1 (arch_remove arch e.2).2 })

/-- Modelled from the spec: `ArchetypeStorage::count_entities` forwards
to `ArchetypeEntities::count` (spec §4.2, "thin forwarders over
`EntitySlots`"). -/
def arch_count (arch : ArchetypeStorageM) : ℕ := countSlots arch.entities

/-- `AllEntities::count` (`EntityStorage::count_entities`): fold of the
per-archetype counts. -/
def count_entities (st : EntityStorageM) : ℕ :=
  (st.archetypes.map arch_count).sum

/-- One user-level operation on the storage. -/
inductive StorageOp where
  | add (stateTy : ℕ) (compTys : List ℕ)
  | remove (e : ℕ × ℕ)
  deriving DecidableEq

/-- Recognizer for insert operations. -/
def isAddOp : StorageOp → Bool
  | .add _ _ => true
  | .remove _ => false

/-- One step of a run: perform the operation and update the two
counters (inserts performed, removes that returned `true`).  A capacity
panic (`storage_add = none`) aborts the Rust program; here it leaves the
accumulator unchanged, and the balance theorem's hypothesis rules the
case out. -/
def stepOp (acc : EntityStorageM × ℕ × ℕ) (op : StorageOp) : EntityStorageM × ℕ × ℕ :=
  match op with
  | .add ty comps =>
      match storage_add acc.1 ty comps with
      | some r => (r.2, acc.2.1 + 1, acc.2.2)
      | none => acc
  | .remove e =>
      ((storage_remove acc.1 e).2, acc.2.1,
       if (storage_remove acc.1 e).1 then acc.2.2 + 1 else acc.2.2)

/-- Run a sequence of operations on a fresh store. -/
def runOps (ops : List StorageOp) : EntityStorageM × ℕ × ℕ :=
  ops.foldl stepOp (emptyStorage, 0, 0)

/-- Interned layout (sorted component ids) of each archetype storage, in
registry order. -/
def archLayouts (st : EntityStorageM) : List (List ℕ) :=
  st.archetypes.map (fun arch => sortIds arch.compTypeIds)

/-- Registry well-formedness: at most one archetype storage per distinct
layout; layout-map entries point at an archetype with that layout; every
archetype's layout is interned; state-type-map entries are valid
indices. -/
def StoreWF (st : EntityStorageM) : Prop :=
  (archLayouts st).Nodup ∧
  (∀ p ∈ st.archetypes_by_layout, (archLayouts st).get? p.2 = some p.1) ∧
  (∀ l ∈ archLayouts st, (alookup st.archetypes_by_layout l).isSome) ∧
  (∀ p ∈ st.archetypes_by_types, p.2 < (archLayouts st).length)

/-- Inductive invariant of a run: the live count plus the successful
removes balances the performed inserts, no occupancy bit vector is
longer than the insert count, and the registry is well-formed. -/
def RunInv (acc : EntityStorageM × ℕ × ℕ) : Prop :=
  count_entities acc.1 + acc.2.2 = acc.2.1 ∧
  (∀ arch ∈ acc.1.archetypes, arch.entities.length ≤ acc.2.1) ∧
  StoreWF acc.1

/-! ### Parallel system partitioning (src/system.rs, `mod parallel`)

A system's declared access map (`System::components`, built by
`with::<C>()` / `with_mut::<C>()`) maps a component `TypeId` to its
`CompMutability` (`true` = mutable).  Rust `HashMap`s have unique keys,
so the claim theorem assumes key-`Nodup` input maps. -/

/-- A declared access map: component type id to mutability. -/
abbrev CompMap := List (ℕ × Bool)

/-- `systems_do_conflict`: some component type appears in both access
maps with at least one of the two declarations mutable. -/
def systems_do_conflict (a_components b_components : CompMap) : Bool :=
  a_components.any (fun p =>
    match alookup b_components p.1 with
    | some mutable_b => p.2 || mutable_b
    | none => false)

/-- `ParallelSystems`: one batch — the indices of its member systems and
the merged access map of all members. -/
structure ParallelSystems where
  systems : List ℕ
  all_components : CompMap
  deriving DecidableEq

/-- One entry of `ParallelSystems::append`'s map merge: an occupied
entry is overwritten only when it was immutable
(`if !a_mutable { e.insert(*b_mutable) }`), which is the OR of the two
flags; a vacant entry is inserted. -/
def updateOr (m : CompMap) (ty : ℕ) (mb : Bool) : CompMap :=
  match m with
  | [] => [(ty, mb)]
  | (k, v) :: t =>
      if k = ty then (k, v || mb) :: t else (k, v) :: updateOr t ty mb

/-- The map part of `ParallelSystems::append`: fold the source batch's
entries into the destination batch's map. -/
def mergeComps (dst src : CompMap) : CompMap :=
  src.foldl (fun acc p => updateOr acc p.1 p.2) dst

/-- `ParallelSystems::append`: extend the member list and merge the
access maps. -/
def appendRun (dst src : ParallelSystems) : ParallelSystems :=
  { systems := dst.systems ++ src.systems,
    all_components := mergeComps dst.all_components src.all_components }

/-- `extract_potential_moves`: for every non-empty batch `i`, the
ascending list of non-empty batches `j ≠ i` whose merged map does not
conflict with batch `i`'s. -/
def extractMoves (runs : List ParallelSystems) : List (List ℕ) :=
  runs.enum.map (fun pi =>
    if pi.2.systems.isEmpty then []
    else
      runs.enum.filterMap (fun pj =>
        if pj.1 ≠ pi.1 ∧ pj.2.systems.isEmpty = false ∧
            systems_do_conflict pi.2.all_components pj.2.all_components = false
        then some pj.1 else none))

/-- The fold inside `min_by_key` (first minimum wins ties). -/
def pickMinAux (x : ℕ × List ℕ) : List (ℕ × List ℕ) → ℕ × List ℕ
  | [] => x
  | y :: t => if y.2.length < x.2.length then pickMinAux y t else pickMinAux x t

/-- `potential_moves.iter().enumerate().filter(nonempty).min_by_key(len)`. -/
def pickMin (moves : List (List ℕ)) : Option (ℕ × List ℕ) :=
  match moves.enum.filter (fun p => !p.2.isEmpty) with
  | [] => none
  | x :: t => some (pickMinAux x t)

/-- One iteration of the partition loop: if any move exists, `take` the
chosen source batch (leaving it empty) and `append` it into the popped
(last) destination; otherwise signal termination. -/
def stepRuns (runs : List ParallelSystems) : Option (List ParallelSystems) :=
  match pickMin (extractMoves runs) with
  | none => none
  | some im =>
      match im.2.getLast? with
      | none => none
      | some j =>
          some ((runs.set im.1 ⟨[], []⟩).set j
            (appendRun (runs.getD j ⟨[], []⟩) (runs.getD im.1 ⟨[], []⟩)))

/-- Fuel-bounded main loop.  Every successful step empties one batch, so
`runs.length` fuel always reaches the fixed point of the Rust `loop`. -/
def loopRuns : ℕ → List ParallelSystems → List ParallelSystems
  | 0, runs => runs
  | fuel + 1, runs =>
      match stepRuns runs with
      | none => runs
      | some runs' => loopRuns fuel runs'

/-- `partition_parallel_systems`: one singleton batch per system, merge
until no conflict-free merge remains, drop the emptied batches. -/
def partition_parallel_systems (systems : List CompMap) : List ParallelSystems :=
  (loopRuns systems.length
      (systems.enum.map (fun p => ⟨[p.1], p.2⟩))).filter
    (fun r => !r.systems.isEmpty)

/-- Map dominance: every entry of `m` is present in `M` with at least
its mutability. -/
def Submap (m M : CompMap) : Prop :=
  ∀ p ∈ m, ∃ v, alookup M p.1 = some v ∧ (p.2 = true → v = true)

/-- Partition-loop invariant: each batch's merged map dominates each
member's declared map, members are in range, and members are pairwise
conflict-free. -/
def RunsInv (sysMaps : List CompMap) (runs : List ParallelSystems) : Prop :=
  ∀ run ∈ runs,
    (∀ s ∈ run.systems, s < sysMaps.length ∧
       Submap (sysMaps.getD s []) run.all_components) ∧
    (∀ s ∈ run.systems, ∀ t ∈ run.systems, s ≠ t →
       systems_do_conflict (sysMaps.getD s []) (sysMaps.getD t []) = false)

/-! ## Theorems -/

/-! ### Bit-vector lemmas -/

theorem countOnes_append (l₁ l₂ : List Bool) :
    countOnes (l₁ ++ l₂) = countOnes l₁ + countOnes l₂ := by
  induction l₁ with
  | nil => simp [countOnes]
  | cons b t ih =>
    cases b
    · simp [countOnes, ih]
    · simp [countOnes, ih]; omega

theorem countOnes_replicate_true (n : ℕ) :
    countOnes (List.replicate n true) = n := by
  induction n with
  | zero => rfl
  | succ n ih => simp [List.replicate, countOnes, ih]

theorem firstZero_replicate_true (n : ℕ) :
    firstZero (List.replicate n true) = none := by
  induction n with
  | zero => rfl
  | succ n ih => simp [List.replicate, firstZero, ih]

theorem firstZero_some (l : List Bool) (i : ℕ) (h : firstZero l = some i) :
    l.get? i = some false ∧ ∀ j, j < i → l.get? j = some true := by
  induction l generalizing i with
  | nil => exact Option.noConfusion h
  | cons b t ih =>
    cases b with
    | true =>
      simp only [firstZero] at h
      cases hi : firstZero t with
      | none => rw [hi] at h; exact Option.noConfusion h
      | some k =>
        rw [hi] at h
        simp only [Option.map_some'] at h
        have hk := Option.some.inj h
        obtain ⟨h1, h2⟩ := ih k hi
        subst hk
        refine ⟨by simpa using h1, ?_⟩
        intro j hj
        match j with
        | 0 => rfl
        | j + 1 => simpa using h2 j (by omega)
    | false =>
      simp only [firstZero] at h
      have hi := Option.some.inj h
      subst hi
      exact ⟨rfl, fun j hj => absurd hj (Nat.not_lt_zero j)⟩

theorem firstZero_none (l : List Bool) (h : firstZero l = none) :
    ∀ b ∈ l, b = true := by
  induction l with
  | nil => intro b hb; simp at hb
  | cons b t ih =>
    intro x hx
    cases b with
    | true =>
      simp only [firstZero, Option.map_eq_none'] at h
      rcases List.mem_cons.mp hx with h1 | h1
      · exact h1
      · exact ih h x h1
    | false => exact Option.noConfusion h

theorem countOnes_set_true (l : List Bool) (i : ℕ) (h : l.get? i = some false) :
    countOnes (l.set i true) = countOnes l + 1 := by
  induction l generalizing i with
  | nil => exact Option.noConfusion h
  | cons b t ih =>
    match i with
    | 0 =>
      simp only [List.get?] at h
      have hb := Option.some.inj h
      subst hb
      simp [countOnes, List.set]
    | i + 1 =>
      simp only [List.get?] at h
      cases b <;> simp [countOnes, List.set, ih i h]

theorem countOnes_set_false (l : List Bool) (i : ℕ) (h : l.get? i = some true) :
    countOnes l = countOnes (l.set i false) + 1 := by
  induction l generalizing i with
  | nil => exact Option.noConfusion h
  | cons b t ih =>
    match i with
    | 0 =>
      simp only [List.get?] at h
      have hb := Option.some.inj h
      subst hb
      simp [countOnes, List.set]
    | i + 1 =>
      simp only [List.get?] at h
      have hrec := ih i h
      cases b <;> simp [countOnes, List.set] <;> omega

theorem countOnes_set_false_of_false (l : List Bool) (i : ℕ)
    (h : l.getD i false = false) : countOnes (l.set i false) = countOnes l := by
  induction l generalizing i with
  | nil => simp
  | cons b t ih =>
    match i with
    | 0 =>
      simp only [List.getD_cons_zero] at h
      subst h
      simp [countOnes, List.set]
    | i + 1 =>
      simp only [List.getD_cons_succ] at h
      cases b <;> simp [countOnes, List.set, ih i h]

theorem firstZero_eq_lowestFreeSpec (bv : List Bool) :
    firstZero bv = lowestFreeSpec bv := by
  induction bv with
  | nil => rfl
  | cons b t ih =>
    cases b with
    | true =>
      simp only [firstZero, ih, lowestFreeSpec, List.length_cons,
        List.range_succ_eq_map, List.find?_cons, List.getD_cons_zero,
        List.getD_cons_succ, List.find?_map]
      rfl
    | false =>
      simp [firstZero, lowestFreeSpec, List.range_succ_eq_map, List.find?_cons]

theorem alookup_mem {κ β : Type} [DecidableEq κ] (l : List (κ × β)) (ty : κ) (v : β)
    (h : alookup l ty = some v) : (ty, v) ∈ l := by
  induction l with
  | nil => exact Option.noConfusion h
  | cons p t ih =>
    obtain ⟨k, w⟩ := p
    by_cases hk : k = ty
    · subst hk
      simp only [alookup, if_pos rfl] at h
      have := Option.some.inj h
      subst this
      exact List.mem_cons_self _ _
    · simp only [alookup, if_neg hk] at h
      exact List.mem_cons_of_mem _ (ih h)

theorem length_iterOnes (l : List Bool) : (iterOnes l).length = countOnes l := by
  induction l with
  | nil => rfl
  | cons b t ih => cases b <;> simp [iterOnes, countOnes, ih]

theorem pairwise_iterOnes (l : List Bool) : List.Pairwise (· < ·) (iterOnes l) := by
  induction l with
  | nil => exact List.Pairwise.nil
  | cons b t ih =>
    have hmap : List.Pairwise (· < ·) ((iterOnes t).map (· + 1)) := by
      rw [List.pairwise_map]
      exact ih.imp (by omega)
    cases b with
    | true =>
      refine List.Pairwise.cons ?_ hmap
      intro y hy
      rcases List.mem_map.mp hy with ⟨x, _, hx⟩
      omega
    | false => exact hmap

theorem mem_iterOnes (l : List Bool) (i : ℕ) :
    i ∈ iterOnes l ↔ l.get? i = some true := by
  induction l generalizing i with
  | nil => simp [iterOnes]
  | cons b t ih =>
    cases b with
    | true =>
      simp only [iterOnes, List.mem_cons, List.mem_map]
      constructor
      · rintro (rfl | ⟨x, hx, rfl⟩)
        · rfl
        · simpa using (ih x).mp hx
      · intro h
        match i with
        | 0 => exact Or.inl rfl
        | i + 1 =>
          right
          exact ⟨i, (ih i).mpr (by simpa using h), rfl⟩
    | false =>
      simp only [iterOnes, List.mem_map]
      constructor
      · rintro ⟨x, hx, rfl⟩
        simpa using (ih x).mp hx
      · intro h
        match i with
        | 0 => simp only [List.get?] at h; exact absurd (Option.some.inj h) (by simp)
        | i + 1 => exact ⟨i, (ih i).mpr (by simpa using h), rfl⟩

/-! ### Claim C8 -/

/-- C8: for every archetype and every component column in its layout,
`ComponentStorage::iter` yields exactly `count()` entries — one per
occupied slot — visiting slots in ascending slot order. -/
theorem component_view_iter_complete {α : Type} (col : List α) (bv : List Bool) :
    (componentIter col bv).length = countSlots bv ∧
    List.Pairwise (· < ·) (componentIterSlots bv) ∧
    ∀ i, i ∈ componentIterSlots bv ↔ containsSlot bv i = true := by
  refine ⟨?_, pairwise_iterOnes bv, ?_⟩
  · simp [componentIter, componentIterSlots, countSlots, length_iterOnes]
  · intro i
    rw [componentIterSlots, mem_iterOnes, containsSlot, List.getD_eq_getD_get?]
    cases h : bv.get? i with
    | none => simp
    | some b => cases b <;> simp

/-! ### Claim C3 -/

/-- C3 (code bug): `const_min` selects the *larger* argument, so
`ArchetypeEntities::MAX_ENTITIES` evaluates to the bitvec bound instead
of `min(MAX_SLOTS, MAX_BITVEC_BITS)`.  Consequently, at occupancy
`2^32 - 1` — where the claimed bound `min(2^32 − 1, bitset_max)` requires
allocation to fail — `allocate_slot` still succeeds and returns the
truncated slot id `2^32 - 1` (the `u32::MAX` null sentinel), while the
intended capacity constant would make it fail. -/
theorem allocate_slot_cap_code_bug :
    constMin maxSlots maxBitvecBits = maxBitvecBits ∧
    maxEntities ≠ min maxSlots maxBitvecBits ∧
    countSlots (List.replicate (2 ^ 32 - 1) true) = 2 ^ 32 - 1 ∧
    min (2 ^ 32 - 1) maxBitvecBits = 2 ^ 32 - 1 ∧
    allocate_slot (List.replicate (2 ^ 32 - 1) true)
      = some (2 ^ 32 - 1, List.replicate (2 ^ 32 - 1) true ++ [true]) ∧
    allocateSlotCore (min maxSlots maxBitvecBits) (List.replicate (2 ^ 32 - 1) true)
      = none := by
  have hlt : maxSlots < maxBitvecBits := by norm_num [maxSlots, maxBitvecBits]
  have hcm : constMin maxSlots maxBitvecBits = maxBitvecBits := by
    simp [constMin, if_pos hlt]
  refine ⟨hcm, ?_, countOnes_replicate_true _, ?_, ?_, ?_⟩
  · rw [maxEntities, hcm, min_eq_left hlt.le]
    omega
  · exact min_eq_left (by norm_num [maxBitvecBits])
  · rw [allocate_slot, allocateSlotCore, firstZero_replicate_true]
    rw [List.length_replicate]
    rw [if_pos (by rw [maxEntities, hcm]; norm_num [maxBitvecBits])]
    rw [Nat.mod_eq_of_lt (by norm_num)]
  · rw [allocateSlotCore, firstZero_replicate_true, min_eq_left hlt.le]
    rw [List.length_replicate]
    rw [if_neg (by norm_num [maxSlots])]

/-! ### Claim C4 -/

/-- C4: whenever a previously-freed slot exists `allocate_slot` returns
the lowest currently-free slot, and otherwise it appends a new slot at
the current high-water mark; in particular the insert–remove–insert
sequence reuses the freed (lowest) slot. -/
theorem allocate_slot_reuses_lowest_free (bv : List Bool)
    (hlen : bv.length < 2 ^ 32) :
    (allocate_slot bv
      = match lowestFreeSpec bv with
        | some i => some (i, bv.set i true)
        | none => some (bv.length, bv ++ [true])) ∧
    (∀ i, lowestFreeSpec bv = some i →
       bv.get? i = some false ∧ ∀ j, j < i → bv.get? j = some true) ∧
    (allocate_slot [] = some (0, [true]) ∧
     free_slot [true] 0 = (true, [false]) ∧
     allocate_slot [false] = some (0, [true])) := by
  refine ⟨?_, ?_, by decide, by decide, by decide⟩
  · rw [allocate_slot, allocateSlotCore, ← firstZero_eq_lowestFreeSpec]
    cases hz : firstZero bv with
    | some i =>
      have hget := (firstZero_some bv i hz).1
      have hilt : i < bv.length := by
        rcases List.get?_eq_some.mp hget with ⟨h, _⟩
        exact h
      simp only []
      rw [Nat.mod_eq_of_lt (lt_trans hilt hlen)]
    | none =>
      simp only []
      rw [if_pos (by rw [maxEntities, constMin]; norm_num [maxSlots, maxBitvecBits]; omega)]
      rw [Nat.mod_eq_of_lt hlen]
  · intro i hi
    rw [← firstZero_eq_lowestFreeSpec] at hi
    exact firstZero_some bv i hi

/-- Witness for C4 at the concrete bit vector `[true, false, true]`. -/
theorem allocate_slot_reuses_lowest_free_witness :
    (([true, false, true] : List Bool).length < 2 ^ 32) ∧
    ((allocate_slot [true, false, true]
      = match lowestFreeSpec [true, false, true] with
        | some i => some (i, ([true, false, true] : List Bool).set i true)
        | none => some (([true, false, true] : List Bool).length,
            [true, false, true] ++ [true])) ∧
    (∀ i, lowestFreeSpec [true, false, true] = some i →
       ([true, false, true] : List Bool).get? i = some false ∧
       ∀ j, j < i → ([true, false, true] : List Bool).get? j = some true) ∧
    (allocate_slot [] = some (0, [true]) ∧
     free_slot [true] 0 = (true, [false]) ∧
     allocate_slot [false] = some (0, [true]))) :=
  ⟨by norm_num, allocate_slot_reuses_lowest_free [true, false, true] (by norm_num)⟩

/-! ### Claims C2 and C5 (legacy `Archetype::remove`) -/

/-- C2 (code bug): with one live entity in slot 0 whose single component
needs dropping, `Archetype::remove(0)` reports `false`, performs no drop
(the inverted `is_present &= !free_slots.insert(..)` guard fails for an
occupied slot), and the subsequent `impl Drop for Archetype` also skips
the slot because it is now marked free — so the component's `drop_func`
runs zero times in total instead of exactly once. -/
theorem remove_then_destroy_drops_zero :
    isPresentO ⟨∅, 1, [true]⟩ 0 = true ∧
    (removeO ⟨∅, 1, [true]⟩ 0).1 = false ∧
    (removeO ⟨∅, 1, [true]⟩ 0).2.2 = 0 ∧
    destructionDropsOnSlot (removeO ⟨∅, 1, [true]⟩ 0).2.1 0 = 0 := by decide

/-- C5 (code bug): for a live entity in slot 0, the first
`Archetype::remove(0)` returns `false` and the second returns `true` —
the inverse of the claimed `true` then `false` — and the second call is
the one that invokes the component drop function, so the store is not
left unchanged by the repeated removal. -/
theorem remove_twice_inverted_code_bug :
    isPresentO ⟨∅, 1, [true]⟩ 0 = true ∧
    (removeO ⟨∅, 1, [true]⟩ 0).1 = false ∧
    (removeO (removeO ⟨∅, 1, [true]⟩ 0).2.1 0).1 = true ∧
    (removeO ⟨∅, 1, [true]⟩ 0).2.2 = 0 ∧
    (removeO (removeO ⟨∅, 1, [true]⟩ 0).2.1 0).2.2 = 1 := by decide

/-! ### Claim C9 -/

/-- C9: inside a system dispatched with a declared access set
(`get_system_data`), requesting an undeclared component fails with
`ComponentNotDeclared` (for both `component` and `component_mut`),
requesting `component_mut` on a read-only declaration fails with
`ImmutableDeclared`, and a request matching the declaration succeeds. -/
theorem dispatched_access_declaration_checks (components : List (ℕ × Bool)) (ty : ℕ) :
    (componentAcq (get_system_data components) ty
      = match alookup components ty with
        | none => Except.error AccessError.componentNotDeclared
        | some _ => Except.ok (get_system_data components)) ∧
    (componentMutAcq (get_system_data components) ty
      = match alookup components ty with
        | none => Except.error AccessError.componentNotDeclared
        | some false => Except.error AccessError.immutableDeclared
        | some true => Except.ok (get_system_data components)) := by
  cases h : alookup components ty with
  | none =>
    constructor <;>
      simp [componentAcq, componentMutAcq, get_component, get_system_data, h]
  | some m =>
    cases m <;> constructor <;>
      simp [componentAcq, componentMutAcq, get_component, get_system_data, h]

/-! ### Claim C10 -/

/-- C10: through `EntityStorage::access()` every component type can be
acquired both immutably and mutably — a vacant entry is lazily
registered with `mutable: true`, so neither accessor can fail, and the
all-entries-mutable invariant is preserved by each acquisition. -/
theorem storage_access_never_fails (acc : SystemAccessM) (ty : ℕ)
    (h : lazilyTrue acc) :
    lazilyTrue accessAll ∧
    (∃ acc', componentAcq acc ty = Except.ok acc' ∧ lazilyTrue acc') ∧
    (∃ acc', componentMutAcq acc ty = Except.ok acc' ∧ lazilyTrue acc') := by
  obtain ⟨hall, htrue⟩ := h
  have haccess : lazilyTrue accessAll := ⟨rfl, by simp [accessAll]⟩
  have hpres : lazilyTrue
      { acc with global_components := acc.global_components ++ [(ty, true)] } := by
    refine ⟨hall, ?_⟩
    intro p hp
    rcases List.mem_append.mp hp with hp | hp
    · exact htrue p hp
    · simp only [List.mem_singleton] at hp
      subst hp
      rfl
  cases hl : alookup acc.global_components ty with
  | none =>
    refine ⟨haccess, ?_, ?_⟩ <;>
      exact ⟨_, by simp [componentAcq, componentMutAcq, get_component, hl, hall], hpres⟩
  | some m =>
    have hm : m = true := htrue (ty, m) (alookup_mem _ _ _ hl)
    subst hm
    refine ⟨haccess, ?_, ?_⟩ <;>
      exact ⟨acc, by simp [componentAcq, componentMutAcq, get_component, hl], ⟨hall, htrue⟩⟩

/-! ### Registry and store lemmas (towards C6 and C7) -/

theorem maxEntities_eq : maxEntities = maxBitvecBits := by
  have hlt : maxSlots < maxBitvecBits := by norm_num [maxSlots, maxBitvecBits]
  simp [maxEntities, constMin, if_pos hlt]

theorem alookup_isSome_cons {κ β : Type} [DecidableEq κ] (l : List (κ × β))
    (k k' : κ) (v : β) (h : (alookup l k).isSome) :
    (alookup ((k', v) :: l) k).isSome := by
  by_cases hk : k' = k <;> simp [alookup, hk, h]

theorem sum_map_set {α : Type} (f : α → ℕ) (l : List α) (k : ℕ) (x y : α)
    (h : l.get? k = some x) :
    ((l.set k y).map f).sum + f x = (l.map f).sum + f y := by
  induction l generalizing k with
  | nil => exact Option.noConfusion h
  | cons a t ih =>
    match k with
    | 0 =>
      have := Option.some.inj h
      subst this
      simp only [List.set_cons_zero, List.map_cons, List.sum_cons]
      omega
    | k + 1 =>
      simp only [List.get?] at h
      have hih := ih k h
      simp only [List.set_cons_succ, List.map_cons, List.sum_cons]
      omega

theorem set_get?_self {α : Type} (l : List α) (k : ℕ) (x : α)
    (h : l.get? k = some x) : l.set k x = l := by
  induction l generalizing k with
  | nil => rfl
  | cons a t ih =>
    match k with
    | 0 =>
      have := Option.some.inj h
      subst this
      rfl
    | k + 1 =>
      simp only [List.get?] at h
      simp [List.set, ih k h]

theorem map_set {α β : Type} (f : α → β) (l : List α) (k : ℕ) (y : α) :
    (l.set k y).map f = (l.map f).set k (f y) := by
  induction l generalizing k with
  | nil => rfl
  | cons a t ih =>
    match k with
    | 0 => rfl
    | k + 1 => simp [List.set, ih k]

theorem archLayouts_set (st : EntityStorageM) (k : ℕ) (arch arch' : ArchetypeStorageM)
    (hget : st.archetypes.get? k = some arch)
    (hty : arch'.compTypeIds = arch.compTypeIds) :
    archLayouts { st with archetypes := st.archetypes.set k arch' } = archLayouts st := by
  show (st.archetypes.set k arch').map _ = _
  rw [map_set, hty]
  have : (st.archetypes.map (fun a => sortIds a.compTypeIds)).get? k
      = some (sortIds arch.compTypeIds) := by
    rw [List.get?_map, hget]
    rfl
  rw [set_get?_self _ _ _ this]
  rfl

theorem goc_eq_of_type_hit (st : EntityStorageM) (ty : ℕ) (comps : List ℕ)
    (archId : ℕ) (h1 : alookup st.archetypes_by_types ty = some archId) :
    get_or_create_archetype st ty comps = (archId, st) := by
  rw [get_or_create_archetype, h1]

theorem goc_eq_of_layout_hit (st : EntityStorageM) (ty : ℕ) (comps : List ℕ)
    (archId : ℕ) (h1 : alookup st.archetypes_by_types ty = none)
    (h2 : alookup st.archetypes_by_layout (sortIds comps) = some archId) :
    get_or_create_archetype st ty comps = (archId, recordStateType st ty archId) := by
  rw [get_or_create_archetype, h1, h2]

theorem goc_eq_of_create (st : EntityStorageM) (ty : ℕ) (comps : List ℕ)
    (h1 : alookup st.archetypes_by_types ty = none)
    (h2 : alookup st.archetypes_by_layout (sortIds comps) = none) :
    get_or_create_archetype st ty comps
      = (st.archetypes.length, createArchetype st ty comps) := by
  rw [get_or_create_archetype, h1, h2]

theorem archLayouts_record (st : EntityStorageM) (ty archId : ℕ) :
    archLayouts (recordStateType st ty archId) = archLayouts st := rfl

theorem archLayouts_create (st : EntityStorageM) (ty : ℕ) (comps : List ℕ) :
    archLayouts (createArchetype st ty comps) = archLayouts st ++ [sortIds comps] := by
  simp [archLayouts, createArchetype]

theorem archLayouts_length (st : EntityStorageM) :
    (archLayouts st).length = st.archetypes.length := by
  simp [archLayouts]

theorem wf_record (st : EntityStorageM) (ty archId : ℕ) (hwf : StoreWF st)
    (hlt : archId < st.archetypes.length) :
    StoreWF (recordStateType st ty archId) := by
  obtain ⟨hnd, hlay, hcomplete, htys⟩ := hwf
  refine ⟨hnd, hlay, hcomplete, ?_⟩
  intro p hp
  rcases List.mem_cons.mp hp with hp | hp
  · subst hp
    rw [archLayouts_record, archLayouts_length]
    exact hlt
  · exact htys p hp

theorem wf_create (st : EntityStorageM) (ty : ℕ) (comps : List ℕ)
    (hwf : StoreWF st)
    (h2 : alookup st.archetypes_by_layout (sortIds comps) = none) :
    StoreWF (createArchetype st ty comps) := by
  obtain ⟨hnd, hlay, hcomplete, htys⟩ := hwf
  have harch := archLayouts_create st ty comps
  have hnotmem : sortIds comps ∉ archLayouts st := by
    intro hmem
    have := hcomplete _ hmem
    rw [h2] at this
    exact absurd this (by simp)
  have hlenlay := archLayouts_length st
  refine ⟨?_, ?_, ?_, ?_⟩
  · rw [harch, List.nodup_append]
    refine ⟨hnd, List.nodup_singleton _, ?_⟩
    intro x hx hy
    rcases List.mem_singleton.mp hy with rfl
    exact hnotmem hx
  · intro p hp
    rw [harch]
    rcases List.mem_cons.mp hp with hp | hp
    · subst hp
      rw [← hlenlay, List.get?_concat_length]
    · have hold := hlay p hp
      have hlt := (List.get?_eq_some.mp hold).1
      rw [List.get?_append hlt]
      exact hold
  · intro l hl
    rw [harch] at hl
    rcases List.mem_append.mp hl with hl | hl
    · exact alookup_isSome_cons _ _ _ _ (hcomplete l hl)
    · rcases List.mem_singleton.mp hl with rfl
      simp [createArchetype, alookup]
  · intro p hp
    rw [harch, List.length_append]
    rcases List.mem_cons.mp hp with hp | hp
    · subst hp
      simp [hlenlay]
    · have := htys p hp
      simp only [List.length_singleton]
      omega

theorem goc_wf (st : EntityStorageM) (ty : ℕ) (comps : List ℕ)
    (hwf : StoreWF st) : StoreWF (get_or_create_archetype st ty comps).2 := by
  cases h1 : alookup st.archetypes_by_types ty with
  | some archId =>
    rw [goc_eq_of_type_hit st ty comps archId h1]
    exact hwf
  | none =>
    cases h2 : alookup st.archetypes_by_layout (sortIds comps) with
    | some archId =>
      rw [goc_eq_of_layout_hit st ty comps archId h1 h2]
      have hmem := alookup_mem _ _ _ h2
      have hsome := hwf.2.1 _ hmem
      have hlt : archId < st.archetypes.length := by
        have := (List.get?_eq_some.mp hsome).1
        rw [archLayouts_length] at this
        exact this
      exact wf_record st ty archId hwf hlt
    | none =>
      rw [goc_eq_of_create st ty comps h1 h2]
      exact wf_create st ty comps hwf h2

theorem goc_valid (st : EntityStorageM) (ty : ℕ) (comps : List ℕ)
    (hwf : StoreWF st) :
    ∃ arch, (get_or_create_archetype st ty comps).2.archetypes.get?
        (get_or_create_archetype st ty comps).1 = some arch := by
  cases h1 : alookup st.archetypes_by_types ty with
  | some archId =>
    rw [goc_eq_of_type_hit st ty comps archId h1]
    have hlt : archId < st.archetypes.length := by
      have := hwf.2.2.2 _ (alookup_mem _ _ _ h1)
      rw [archLayouts_length] at this
      exact this
    exact ⟨_, List.get?_eq_get hlt⟩
  | none =>
    cases h2 : alookup st.archetypes_by_layout (sortIds comps) with
    | some archId =>
      rw [goc_eq_of_layout_hit st ty comps archId h1 h2]
      have hsome := hwf.2.1 _ (alookup_mem _ _ _ h2)
      have hlt : archId < st.archetypes.length := by
        have := (List.get?_eq_some.mp hsome).1
        rw [archLayouts_length] at this
        exact this
      exact ⟨_, List.get?_eq_get hlt⟩
    | none =>
      rw [goc_eq_of_create st ty comps h1 h2]
      exact ⟨_, List.get?_concat_length _ _⟩

theorem goc_no_append (st : EntityStorageM) (ty : ℕ) (comps : List ℕ)
    (h : (alookup st.archetypes_by_layout (sortIds comps)).isSome) :
    (get_or_create_archetype st ty comps).2.archetypes = st.archetypes := by
  cases h1 : alookup st.archetypes_by_types ty with
  | some archId => rw [goc_eq_of_type_hit st ty comps archId h1]
  | none =>
    cases h2 : alookup st.archetypes_by_layout (sortIds comps) with
    | some archId => rw [goc_eq_of_layout_hit st ty comps archId h1 h2]; rfl
    | none => rw [h2] at h; exact absurd h (by simp)

theorem goc_idem (st : EntityStorageM) (ty : ℕ) (comps : List ℕ) :
    get_or_create_archetype (get_or_create_archetype st ty comps).2 ty comps
      = get_or_create_archetype st ty comps := by
  cases h1 : alookup st.archetypes_by_types ty with
  | some archId =>
    rw [goc_eq_of_type_hit st ty comps archId h1]
    exact goc_eq_of_type_hit st ty comps archId h1
  | none =>
    cases h2 : alookup st.archetypes_by_layout (sortIds comps) with
    | some archId =>
      rw [goc_eq_of_layout_hit st ty comps archId h1 h2]
      exact goc_eq_of_type_hit _ ty comps archId (by simp [recordStateType, alookup])
    | none =>
      rw [goc_eq_of_create st ty comps h1 h2]
      exact goc_eq_of_type_hit _ ty comps st.archetypes.length
        (by simp [createArchetype, alookup])

theorem arch_add_entity_spec (arch : ArchetypeStorageM)
    (hlen : arch.entities.length < maxEntities) :
    ∃ slot arch', arch_add_entity arch = some (slot, arch') ∧
      countSlots arch'.entities = countSlots arch.entities + 1 ∧
      arch'.entities.length ≤ arch.entities.length + 1 ∧
      arch'.compTypeIds = arch.compTypeIds := by
  rw [arch_add_entity, allocate_slot, allocateSlotCore]
  cases hz : firstZero arch.entities with
  | some i =>
    refine ⟨_, _, rfl, ?_, ?_, rfl⟩
    · simpa [countSlots] using countOnes_set_true _ _ (firstZero_some _ _ hz).1
    · simp
  | none =>
    rw [if_pos hlen]
    refine ⟨_, _, rfl, ?_, ?_, rfl⟩
    · simp [countSlots, countOnes_append, countOnes]
    · simp

theorem count_entities_goc (st : EntityStorageM) (ty : ℕ) (comps : List ℕ) :
    count_entities (get_or_create_archetype st ty comps).2 = count_entities st := by
  cases h1 : alookup st.archetypes_by_types ty with
  | some archId => rw [goc_eq_of_type_hit st ty comps archId h1]
  | none =>
    cases h2 : alookup st.archetypes_by_layout (sortIds comps) with
    | some archId => rw [goc_eq_of_layout_hit st ty comps archId h1 h2]; rfl
    | none =>
      rw [goc_eq_of_create st ty comps h1 h2]
      simp [count_entities, createArchetype, arch_count, countSlots, countOnes]

theorem goc_arch_length_bound (st : EntityStorageM) (ty : ℕ) (comps : List ℕ) (a : ℕ)
    (hb : ∀ arch ∈ st.archetypes, arch.entities.length ≤ a) :
    ∀ arch ∈ (get_or_create_archetype st ty comps).2.archetypes,
      arch.entities.length ≤ a := by
  cases h1 : alookup st.archetypes_by_types ty with
  | some archId => rw [goc_eq_of_type_hit st ty comps archId h1]; exact hb
  | none =>
    cases h2 : alookup st.archetypes_by_layout (sortIds comps) with
    | some archId => rw [goc_eq_of_layout_hit st ty comps archId h1 h2]; exact hb
    | none =>
      rw [goc_eq_of_create st ty comps h1 h2]
      intro arch hmem
      rcases List.mem_append.mp hmem with hmem | hmem
      · exact hb arch hmem
      · rcases List.mem_singleton.mp hmem with rfl
        exact Nat.zero_le a

theorem wf_set_same_layout (st : EntityStorageM) (k : ℕ)
    (arch arch' : ArchetypeStorageM) (hget : st.archetypes.get? k = some arch)
    (hty : arch'.compTypeIds = arch.compTypeIds) (hwf : StoreWF st) :
    StoreWF { st with archetypes := st.archetypes.set k arch' } := by
  have he := archLayouts_set st k arch arch' hget hty
  obtain ⟨hnd, hlay, hcomplete, htys⟩ := hwf
  refine ⟨?_, ?_, ?_, ?_⟩ <;> rw [he]
  exacts [hnd, hlay, hcomplete, htys]

theorem free_slot_spec (bv : List Bool) (id : ℕ) :
    ((free_slot bv id).1 = true ∧ countOnes bv = countOnes (free_slot bv id).2 + 1 ∨
     (free_slot bv id).1 = false ∧ countOnes (free_slot bv id).2 = countOnes bv) ∧
    (free_slot bv id).2.length = bv.length := by
  rw [free_slot]
  by_cases hl : bv.length ≤ id
  · rw [if_pos hl]
    exact ⟨Or.inr ⟨rfl, rfl⟩, rfl⟩
  · rw [if_neg hl]
    by_cases hb : bv.getD id false = true
    · have hq : bv.get? id = some true := by
        rw [List.getD_eq_getD_get?] at hb
        cases hq : bv.get? id with
        | none => rw [hq] at hb; exact absurd hb (by simp)
        | some b => rw [hq] at hb; simp at hb; rw [hb]
      exact ⟨Or.inl ⟨by simpa using hb, countOnes_set_false bv id hq⟩,
        by simp⟩
    · have hb' : bv.getD id false = false := by
        cases hx : bv.getD id false
        · rfl
        · exact absurd hx hb
      exact ⟨Or.inr ⟨by simpa using hb', countOnes_set_false_of_false bv id hb'⟩,
        by simp⟩

theorem RunInv_mk (st : EntityStorageM) (a r : ℕ)
    (h1 : count_entities st + r = a)
    (h2 : ∀ arch ∈ st.archetypes, arch.entities.length ≤ a)
    (h3 : StoreWF st) : RunInv (st, a, r) :=
  ⟨h1, h2, h3⟩

theorem stepOp_inv (acc : EntityStorageM × ℕ × ℕ) (op : StorageOp)
    (hinv : RunInv acc) (hcap : acc.2.1 < maxEntities) :
    RunInv (stepOp acc op) ∧
    (stepOp acc op).2.1 = acc.2.1 + (if isAddOp op then 1 else 0) := by
  obtain ⟨st, a, r⟩ := acc
  obtain ⟨hbal, hlenb, hwf⟩ := hinv
  have hbal' : count_entities st + r = a := hbal
  have hlenb' : ∀ arch ∈ st.archetypes, arch.entities.length ≤ a := hlenb
  have hwf' : StoreWF st := hwf
  have hcap' : a < maxEntities := hcap
  cases op with
  | add ty comps =>
    have hgwf := goc_wf st ty comps hwf'
    obtain ⟨arch, harch⟩ := goc_valid st ty comps hwf'
    have hmem : arch ∈ (get_or_create_archetype st ty comps).2.archetypes :=
      List.get?_mem harch
    have hlb := goc_arch_length_bound st ty comps a hlenb'
    have hlenarch : arch.entities.length < maxEntities :=
      lt_of_le_of_lt (hlb arch hmem) hcap'
    obtain ⟨slot, arch', hadd, hcount, hlen', hty'⟩ := arch_add_entity_spec arch hlenarch
    have hsadd : storage_add st ty comps
        = some (((get_or_create_archetype st ty comps).1 % 2 ^ 32, slot),
            { (get_or_create_archetype st ty comps).2 with
                archetypes :=
                  (get_or_create_archetype st ty comps).2.archetypes.set
                    (get_or_create_archetype st ty comps).1 arch' }) := by
      simp only [storage_add, harch, hadd]
    have heq : stepOp (st, a, r) (.add ty comps)
        = ({ (get_or_create_archetype st ty comps).2 with
              archetypes :=
                (get_or_create_archetype st ty comps).2.archetypes.set
                  (get_or_create_archetype st ty comps).1 arch' }, a + 1, r) := by
      simp only [stepOp, hsadd]
    rw [heq]
    have hsum := sum_map_set arch_count
      (get_or_create_archetype st ty comps).2.archetypes
      (get_or_create_archetype st ty comps).1 arch arch' harch
    refine ⟨RunInv_mk _ _ _ ?_ ?_ ?_, by simp [isAddOp]⟩
    · show (((get_or_create_archetype st ty comps).2.archetypes.set
          (get_or_create_archetype st ty comps).1 arch').map arch_count).sum + r
        = a + 1
      have hA : arch_count arch' = arch_count arch + 1 := by
        simpa [arch_count] using hcount
      have hcnt' : (((get_or_create_archetype st ty comps).2.archetypes).map
          arch_count).sum = count_entities st := count_entities_goc st ty comps
      omega
    · intro x hx
      have hx' : x ∈ (get_or_create_archetype st ty comps).2.archetypes.set
          (get_or_create_archetype st ty comps).1 arch' := hx
      rcases List.mem_or_eq_of_mem_set hx' with hmx | hmx
      · exact le_trans (hlb x hmx) (Nat.le_succ a)
      · subst hmx
        have := hlb arch hmem
        omega
    · exact wf_set_same_layout _ _ arch arch' harch hty' hgwf
  | remove e =>
    have heqR : stepOp (st, a, r) (.remove e)
        = ((storage_remove st e).2, a,
           if (storage_remove st e).1 then r + 1 else r) := rfl
    rw [heqR]
    cases hget : st.archetypes.get? e.1 with
    | none =>
      have hsrem : storage_remove st e = (false, st) := by
        rw [storage_remove, hget]
      rw [hsrem]
      exact ⟨⟨hbal', hlenb', hwf'⟩, by simp [isAddOp]⟩
    | some arch =>
      have hsrem : storage_remove st e
          = ((arch_remove arch e.2).1,
             { st with
                 archetypes := st.archetypes.set e.1 (arch_remove arch e.2).2 }) := by
        rw [storage_remove, hget]
      rw [hsrem]
      obtain ⟨hflag, hfslen⟩ := free_slot_spec arch.entities e.2
      have hsum := sum_map_set arch_count st.archetypes e.1 arch
        (arch_remove arch e.2).2 hget
      refine ⟨RunInv_mk _ _ _ ?_ ?_ ?_, by simp [isAddOp]⟩
      · show ((st.archetypes.set e.1 (arch_remove arch e.2).2).map arch_count).sum
            + (if (arch_remove arch e.2).1 then r + 1 else r) = a
        have hce : count_entities st = (st.archetypes.map arch_count).sum := rfl
        rcases hflag with ⟨hf, hc⟩ | ⟨hf, hc⟩
        · have hf' : (arch_remove arch e.2).1 = true := hf
          have hcc : arch_count arch = arch_count (arch_remove arch e.2).2 + 1 := hc
          rw [hf', if_pos rfl]
          omega
        · have hf' : (arch_remove arch e.2).1 = false := hf
          have hcc : arch_count (arch_remove arch e.2).2 = arch_count arch := hc
          rw [hf']
          simp only [Bool.false_eq_true, if_false]
          omega
      · intro x hx
        have hx' : x ∈ st.archetypes.set e.1 (arch_remove arch e.2).2 := hx
        rcases List.mem_or_eq_of_mem_set hx' with hmx | hmx
        · exact hlenb' x hmx
        · subst hmx
          show (free_slot arch.entities e.2).2.length ≤ a
          rw [hfslen]
          exact hlenb' arch (List.get?_mem hget)
      · exact wf_set_same_layout st e.1 arch (arch_remove arch e.2).2 hget rfl hwf'


theorem runOps_inv (ops : List StorageOp) (acc : EntityStorageM × ℕ × ℕ)
    (hinv : RunInv acc) (hbound : acc.2.1 + ops.length ≤ maxEntities) :
    RunInv (ops.foldl stepOp acc) ∧
    (ops.foldl stepOp acc).2.1 = acc.2.1 + (ops.filter isAddOp).length := by
  induction ops generalizing acc with
  | nil => exact ⟨hinv, by simp⟩
  | cons op t ih =>
    have hcap : acc.2.1 < maxEntities := by
      simp only [List.length_cons] at hbound
      omega
    obtain ⟨hinv', hctr⟩ := stepOp_inv acc op hinv hcap
    have hbound' : (stepOp acc op).2.1 + t.length ≤ maxEntities := by
      simp only [List.length_cons] at hbound
      rw [hctr]
      by_cases hop : isAddOp op <;> simp [hop] <;> omega
    obtain ⟨hfin, hfctr⟩ := ih (stepOp acc op) hinv' hbound'
    refine ⟨hfin, ?_⟩
    rw [List.foldl_cons] at *
    rw [hfctr, hctr]
    by_cases hop : isAddOp op <;> simp [List.filter, hop] <;> omega

/-! ### Claim C6 -/

/-- C6: after any sequence of insert and remove operations on a fresh
store (shorter than the slot capacity), `count_entities()` equals the
number of inserts performed minus the number of remove calls that
returned `true` — and every insert in the sequence is indeed performed
(the insert counter equals the number of `add` operations). -/
theorem count_entities_balance (ops : List StorageOp) (h : ops.length < 2 ^ 32) :
    (runOps ops).2.1 = (ops.filter isAddOp).length ∧
    (runOps ops).2.2 ≤ (runOps ops).2.1 ∧
    count_entities (runOps ops).1 = (runOps ops).2.1 - (runOps ops).2.2 := by
  have hbase : RunInv (emptyStorage, 0, 0) := by
    refine ⟨rfl, ?_, ?_, ?_, ?_, ?_⟩ <;> simp [emptyStorage, archLayouts]
  have hbound : (0 : ℕ) + ops.length ≤ maxEntities := by
    rw [maxEntities_eq]
    norm_num [maxBitvecBits]
    omega
  obtain ⟨⟨hbal, hq1, hq2⟩, hctr⟩ := runOps_inv ops (emptyStorage, 0, 0) hbase hbound
  have hb2 : count_entities (runOps ops).1 + (runOps ops).2.2 = (runOps ops).2.1 := hbal
  have hc2 : (runOps ops).2.1 = (ops.filter isAddOp).length := by
    show (List.foldl stepOp (emptyStorage, 0, 0) ops).2.1 = _
    rw [hctr]
    exact Nat.zero_add _
  exact ⟨hc2, by omega, by omega⟩

/-- Witness for C6 on a concrete sequence: two inserts of the same state
type, one successful remove, one failed (repeated) remove. -/
theorem count_entities_balance_witness :
    ([StorageOp.add 0 [1], StorageOp.add 0 [1], StorageOp.remove (0, 0),
      StorageOp.remove (0, 0)].length < 2 ^ 32) ∧
    ((runOps [StorageOp.add 0 [1], StorageOp.add 0 [1], StorageOp.remove (0, 0),
        StorageOp.remove (0, 0)]).2.1
      = ([StorageOp.add 0 [1], StorageOp.add 0 [1], StorageOp.remove (0, 0),
          StorageOp.remove (0, 0)].filter isAddOp).length ∧
     (runOps [StorageOp.add 0 [1], StorageOp.add 0 [1], StorageOp.remove (0, 0),
        StorageOp.remove (0, 0)]).2.2
      ≤ (runOps [StorageOp.add 0 [1], StorageOp.add 0 [1], StorageOp.remove (0, 0),
          StorageOp.remove (0, 0)]).2.1 ∧
     count_entities (runOps [StorageOp.add 0 [1], StorageOp.add 0 [1],
        StorageOp.remove (0, 0), StorageOp.remove (0, 0)]).1
      = (runOps [StorageOp.add 0 [1], StorageOp.add 0 [1], StorageOp.remove (0, 0),
          StorageOp.remove (0, 0)]).2.1
        - (runOps [StorageOp.add 0 [1], StorageOp.add 0 [1], StorageOp.remove (0, 0),
            StorageOp.remove (0, 0)]).2.2) :=
  ⟨by norm_num,
   count_entities_balance
     [StorageOp.add 0 [1], StorageOp.add 0 [1], StorageOp.remove (0, 0),
      StorageOp.remove (0, 0)] (by norm_num)⟩

/-! ### Claim C7 -/

/-- C7: `ArchetypeLayout` equality is equality of the sorted
component-type-id vectors (the hash cache is ignored); the registry
keeps at most one archetype storage per distinct layout
(well-formedness, including layout `Nodup`, is preserved by
`get_or_create_archetype`); inserting a state whose layout is already
interned never appends a storage; and resolving the same state type
twice yields the same archetype index and store. -/
theorem registry_layout_interning (a b : ArchetypeLayoutM) (tys : List ℕ)
    (hash1 hash2 : ℕ) (st : EntityStorageM) (ty : ℕ) (comps : List ℕ)
    (hwf : StoreWF st) :
    (layoutEq a b = true ↔ a.sorted_type_ids = b.sorted_type_ids) ∧
    layoutEq (layoutNew tys hash1) (layoutNew tys hash2) = true ∧
    StoreWF (get_or_create_archetype st ty comps).2 ∧
    ((alookup st.archetypes_by_layout (sortIds comps)).isSome →
       (get_or_create_archetype st ty comps).2.archetypes = st.archetypes) ∧
    get_or_create_archetype (get_or_create_archetype st ty comps).2 ty comps
      = get_or_create_archetype st ty comps := by
  refine ⟨?_, ?_, goc_wf st ty comps hwf, goc_no_append st ty comps, goc_idem st ty comps⟩
  · simp [layoutEq]
  · simp [layoutEq, layoutNew]

/-- Witness for C7 on the empty registry with concrete layouts. -/
theorem registry_layout_interning_witness :
    StoreWF emptyStorage ∧
    ((layoutEq ⟨[1, 2], 5⟩ ⟨[1, 2], 9⟩ = true
        ↔ (ArchetypeLayoutM.mk [1, 2] 5).sorted_type_ids
            = (ArchetypeLayoutM.mk [1, 2] 9).sorted_type_ids) ∧
     layoutEq (layoutNew [2, 1] 5) (layoutNew [2, 1] 9) = true ∧
     StoreWF (get_or_create_archetype emptyStorage 0 [2, 1]).2 ∧
     ((alookup emptyStorage.archetypes_by_layout (sortIds [2, 1])).isSome →
        (get_or_create_archetype emptyStorage 0 [2, 1]).2.archetypes
          = emptyStorage.archetypes) ∧
     get_or_create_archetype (get_or_create_archetype emptyStorage 0 [2, 1]).2 0 [2, 1]
       = get_or_create_archetype emptyStorage 0 [2, 1]) :=
  ⟨by refine ⟨?_, ?_, ?_, ?_⟩ <;> simp [archLayouts, emptyStorage],
   registry_layout_interning ⟨[1, 2], 5⟩ ⟨[1, 2], 9⟩ [2, 1] 5 9 emptyStorage 0 [2, 1]
     (by refine ⟨?_, ?_, ?_, ?_⟩ <;> simp [archLayouts, emptyStorage])⟩

/-- Witness for C10: a fresh `access()` handle acquires an arbitrary
component type (here `7`) both ways. -/
theorem storage_access_never_fails_witness :
    lazilyTrue accessAll ∧
    (lazilyTrue accessAll ∧
     (∃ acc', componentAcq accessAll 7 = Except.ok acc' ∧ lazilyTrue acc') ∧
     (∃ acc', componentMutAcq accessAll 7 = Except.ok acc' ∧ lazilyTrue acc')) :=
  ⟨⟨rfl, by simp [accessAll]⟩,
   storage_access_never_fails accessAll 7 ⟨rfl, by simp [accessAll]⟩⟩

/-! ### Scheduler lemmas (towards C1) -/

theorem getLast?_mem {α : Type} (l : List α) (a : α) (h : l.getLast? = some a) :
    a ∈ l := by
  induction l with
  | nil => exact Option.noConfusion h
  | cons x t ih =>
    cases t with
    | nil =>
      rw [List.getLast?_singleton] at h
      have := Option.some.inj h
      subst this
      exact List.mem_singleton_self _
    | cons y t' =>
      rw [List.getLast?_cons_cons] at h
      exact List.mem_cons_of_mem _ (ih h)

theorem getD_mem {α : Type} (l : List α) (n : ℕ) (d : α) (h : n < l.length) :
    l.getD n d ∈ l := by
  rw [List.getD_eq_getD_get?, List.get?_eq_get h]
  exact List.get_mem l n h

theorem alookup_updateOr_self (m : CompMap) (ty : ℕ) (mb : Bool) :
    alookup (updateOr m ty mb) ty = some ((alookup m ty).getD false || mb) := by
  induction m with
  | nil => simp [updateOr, alookup]
  | cons p t ih =>
    obtain ⟨k, v⟩ := p
    by_cases hk : k = ty
    · subst hk
      simp [updateOr, alookup]
    · simp [updateOr, alookup, hk, ih]

theorem alookup_updateOr_other (m : CompMap) (ty ty' : ℕ) (mb : Bool)
    (h : ty' ≠ ty) : alookup (updateOr m ty mb) ty' = alookup m ty' := by
  induction m with
  | nil => simp [updateOr, alookup, Ne.symm h]
  | cons p t ih =>
    obtain ⟨k, v⟩ := p
    by_cases hk : k = ty
    · subst hk
      simp [updateOr, alookup, Ne.symm h]
    · by_cases hk' : k = ty'
      · subst hk'
        simp [updateOr, alookup, hk]
      · simp [updateOr, alookup, hk, hk', ih]

theorem alookup_mergeComps_mono (src : CompMap) (dst : CompMap) (ty : ℕ) (v : Bool)
    (h : alookup dst ty = some v) :
    ∃ v', alookup (mergeComps dst src) ty = some v' ∧ (v = true → v' = true) := by
  induction src generalizing dst v with
  | nil => exact ⟨v, h, fun hv => hv⟩
  | cons p t ih =>
    by_cases hty : ty = p.1
    · have h2 : alookup (updateOr dst p.1 p.2) ty = some (v || p.2) := by
        rw [hty] at h ⊢
        rw [alookup_updateOr_self, h]
        rfl
      obtain ⟨v', hv', himp⟩ := ih (updateOr dst p.1 p.2) (v || p.2) h2
      exact ⟨v', hv', fun hv => himp (by simp [hv])⟩
    · have h2 : alookup (updateOr dst p.1 p.2) ty = some v := by
        rw [alookup_updateOr_other _ _ _ _ hty]
        exact h
      exact ih (updateOr dst p.1 p.2) v h2

theorem alookup_mergeComps_src (src : CompMap) (dst : CompMap) (p : ℕ × Bool)
    (hp : p ∈ src) :
    ∃ v', alookup (mergeComps dst src) p.1 = some v' ∧ (p.2 = true → v' = true) := by
  induction src generalizing dst with
  | nil => cases hp
  | cons q t ih =>
    rcases List.mem_cons.mp hp with rfl | hp'
    · have h2 : alookup (updateOr dst p.1 p.2) p.1
          = some ((alookup dst p.1).getD false || p.2) :=
        alookup_updateOr_self dst p.1 p.2
      obtain ⟨v', hv', himp⟩ :=
        alookup_mergeComps_mono t (updateOr dst p.1 p.2) p.1 _ h2
      exact ⟨v', hv', fun hv => himp (by simp [hv])⟩
    · exact ih (updateOr dst q.1 q.2) hp'

theorem Submap_mergeComps_left (x dst src : CompMap) (h : Submap x dst) :
    Submap x (mergeComps dst src) := by
  intro p hp
  obtain ⟨v, hv, himp⟩ := h p hp
  obtain ⟨v', hv', himp'⟩ := alookup_mergeComps_mono src dst p.1 v hv
  exact ⟨v', hv', fun ht => himp' (himp ht)⟩

theorem Submap_mergeComps_right (x dst src : CompMap) (h : Submap x src) :
    Submap x (mergeComps dst src) := by
  intro p hp
  obtain ⟨v, hv, himp⟩ := h p hp
  obtain ⟨v', hv', himp'⟩ :=
    alookup_mergeComps_src src dst (p.1, v) (alookup_mem _ _ _ hv)
  exact ⟨v', hv', fun ht => himp' (himp ht)⟩

theorem conflict_entry_iff (a b : CompMap) :
    systems_do_conflict a b = true ↔
      ∃ p ∈ a, ∃ mb, alookup b p.1 = some mb ∧ (p.2 || mb) = true := by
  rw [systems_do_conflict, List.any_eq_true]
  constructor
  · rintro ⟨p, hp, hcond⟩
    refine ⟨p, hp, ?_⟩
    cases hl : alookup b p.1 with
    | none => rw [hl] at hcond; exact absurd hcond (by simp)
    | some mb => rw [hl] at hcond; exact ⟨mb, rfl, hcond⟩
  · rintro ⟨p, hp, mb, hmb, hor⟩
    refine ⟨p, hp, ?_⟩
    rw [hmb]
    exact hor

theorem alookup_of_mem_nodup {β : Type} (m : List (ℕ × β)) (p : ℕ × β)
    (hnd : (m.map Prod.fst).Nodup) (hp : p ∈ m) : alookup m p.1 = some p.2 := by
  induction m with
  | nil => cases hp
  | cons q t ih =>
    obtain ⟨k, v⟩ := q
    rw [List.map_cons, List.nodup_cons] at hnd
    rcases List.mem_cons.mp hp with rfl | hp'
    · simp [alookup]
    · have hne : k ≠ p.1 := by
        intro he
        exact hnd.1 (List.mem_map.mpr ⟨p, hp', he.symm⟩)
      simp only [alookup, if_neg hne]
      exact ih hnd.2 hp'

theorem conflict_symm (a b : CompMap) (ha : (a.map Prod.fst).Nodup)
    (hb : (b.map Prod.fst).Nodup) :
    systems_do_conflict a b = systems_do_conflict b a := by
  cases hab : systems_do_conflict a b with
  | true =>
    obtain ⟨p, hp, mb, hmb, hor⟩ := (conflict_entry_iff a b).mp hab
    have hpa : alookup a p.1 = some p.2 := alookup_of_mem_nodup a p ha hp
    have hba : systems_do_conflict b a = true := by
      refine (conflict_entry_iff b a).mpr
        ⟨(p.1, mb), alookup_mem _ _ _ hmb, p.2, hpa, ?_⟩
      rw [Bool.or_comm]
      exact hor
    rw [hba]
  | false =>
    cases hba : systems_do_conflict b a with
    | false => rfl
    | true =>
      obtain ⟨q, hq, ma, hma, hor⟩ := (conflict_entry_iff b a).mp hba
      have hqb : alookup b q.1 = some q.2 := alookup_of_mem_nodup b q hb hq
      have hcontra : systems_do_conflict a b = true := by
        refine (conflict_entry_iff a b).mpr
          ⟨(q.1, ma), alookup_mem _ _ _ hma, q.2, hqb, ?_⟩
        rw [Bool.or_comm]
        exact hor
      rw [hab] at hcontra
      exact hcontra

theorem conflict_mono (a A b B : CompMap) (hsa : Submap a A) (hsb : Submap b B)
    (hAB : systems_do_conflict A B = false) :
    systems_do_conflict a b = false := by
  cases hab : systems_do_conflict a b with
  | false => rfl
  | true =>
    obtain ⟨p, hp, mb, hmb, hor⟩ := (conflict_entry_iff a b).mp hab
    obtain ⟨Ma, hMa, impa⟩ := hsa p hp
    obtain ⟨Mb, hMb, impb⟩ := hsb (p.1, mb) (alookup_mem _ _ _ hmb)
    have hconf : systems_do_conflict A B = true := by
      refine (conflict_entry_iff A B).mpr
        ⟨(p.1, Ma), alookup_mem _ _ _ hMa, Mb, hMb, ?_⟩
      rcases Bool.or_eq_true_iff.mp hor with h | h
      · rw [impa h]
        rfl
      · rw [impb h]
        simp
    rw [hAB] at hconf
    exact hconf.symm

theorem extractMoves_spec (runs : List ParallelSystems) (i j : ℕ) (ms : List ℕ)
    (hms : (extractMoves runs).get? i = some ms) (hj : j ∈ ms) :
    j ≠ i ∧
    ∃ ri rj, runs.get? i = some ri ∧ runs.get? j = some rj ∧
      systems_do_conflict ri.all_components rj.all_components = false := by
  rw [extractMoves, List.get?_map, List.get?_enum] at hms
  cases hri : runs.get? i with
  | none => rw [hri] at hms; exact Option.noConfusion hms
  | some ri =>
    rw [hri] at hms
    simp only [Option.map_some'] at hms
    have hms' := Option.some.inj hms
    by_cases hempty : ri.systems.isEmpty
    · rw [if_pos (by exact hempty)] at hms'
      rw [← hms'] at hj
      cases hj
    · rw [if_neg (by exact hempty)] at hms'
      rw [← hms'] at hj
      obtain ⟨pj, hpj, hgj⟩ := List.mem_filterMap.mp hj
      by_cases hcond : pj.1 ≠ (i, ri).1 ∧ pj.2.systems.isEmpty = false ∧
          systems_do_conflict (i, ri).2.all_components pj.2.all_components = false
      · rw [if_pos hcond] at hgj
        have hj1 := Option.some.inj hgj
        have hgetj : runs.get? pj.1 = some pj.2 := List.mem_enum_iff_get?.mp hpj
        subst hj1
        exact ⟨hcond.1, ri, pj.2, rfl, hgetj, hcond.2.2⟩
      · rw [if_neg hcond] at hgj
        exact Option.noConfusion hgj

theorem pickMinAux_mem (x : ℕ × List ℕ) (t : List (ℕ × List ℕ)) :
    pickMinAux x t = x ∨ pickMinAux x t ∈ t := by
  induction t generalizing x with
  | nil => exact Or.inl rfl
  | cons y t ih =>
    rw [pickMinAux]
    by_cases hlt : y.2.length < x.2.length
    · rw [if_pos hlt]
      rcases ih y with h | h
      · exact Or.inr (by rw [h]; exact List.mem_cons_self _ _)
      · exact Or.inr (List.mem_cons_of_mem _ h)
    · rw [if_neg hlt]
      rcases ih x with h | h
      · exact Or.inl h
      · exact Or.inr (List.mem_cons_of_mem _ h)

theorem pickMin_spec (moves : List (List ℕ)) (i : ℕ) (ms : List ℕ)
    (h : pickMin moves = some (i, ms)) : moves.get? i = some ms := by
  rw [pickMin] at h
  cases hf : moves.enum.filter (fun p => !p.2.isEmpty) with
  | nil => rw [hf] at h; exact Option.noConfusion h
  | cons x t =>
    rw [hf] at h
    have heq := Option.some.inj h
    have hmem : (i, ms) ∈ x :: t := by
      rcases pickMinAux_mem x t with h2 | h2
      · rw [heq] at h2
        rw [← h2]
        exact List.mem_cons_self _ _
      · rw [heq] at h2
        exact List.mem_cons_of_mem _ h2
    have hmem' : (i, ms) ∈ moves.enum.filter (fun p => !p.2.isEmpty) := by
      rw [hf]
      exact hmem
    exact List.mem_enum_iff_get?.mp (List.mem_filter.mp hmem').1

theorem stepRuns_inv (sysMaps : List CompMap) (runs runs' : List ParallelSystems)
    (hnd : ∀ m ∈ sysMaps, (m.map Prod.fst).Nodup)
    (hinv : RunsInv sysMaps runs) (hstep : stepRuns runs = some runs') :
    RunsInv sysMaps runs' := by
  rw [stepRuns] at hstep
  cases hpick : pickMin (extractMoves runs) with
  | none =>
    rw [hpick] at hstep
    exact Option.noConfusion hstep
  | some im =>
    rw [hpick] at hstep
    have hstep2 : (match im.2.getLast? with
        | none => none
        | some j =>
            some ((runs.set im.1 ⟨[], []⟩).set j
              (appendRun (runs.getD j ⟨[], []⟩) (runs.getD im.1 ⟨[], []⟩))))
        = some runs' := hstep
    cases hlast : im.2.getLast? with
    | none =>
      rw [hlast] at hstep2
      exact Option.noConfusion hstep2
    | some j =>
      rw [hlast] at hstep2
      have hruns' := Option.some.inj hstep2
      have hget : (extractMoves runs).get? im.1 = some im.2 :=
        pickMin_spec (extractMoves runs) im.1 im.2 hpick
      obtain ⟨hji, ri, rj, hgi, hgj, hconf⟩ :=
        extractMoves_spec runs im.1 j im.2 hget (getLast?_mem _ _ hlast)
      have hgetDj : runs.getD j ⟨[], []⟩ = rj := by
        rw [List.getD_eq_getD_get?, hgj]
        rfl
      have hgetDi : runs.getD im.1 ⟨[], []⟩ = ri := by
        rw [List.getD_eq_getD_get?, hgi]
        rfl
      intro run hrun
      rw [← hruns'] at hrun
      rcases List.mem_or_eq_of_mem_set hrun with hrun1 | hrunEq
      · rcases List.mem_or_eq_of_mem_set hrun1 with hrun2 | hrunEq2
        · exact hinv run hrun2
        · subst hrunEq2
          exact ⟨fun s hs => absurd hs (List.not_mem_nil s),
                 fun s hs => absurd hs (List.not_mem_nil s)⟩
      · subst hrunEq
        rw [hgetDj, hgetDi]
        obtain ⟨hmemi, hpairi⟩ := hinv ri (List.get?_mem hgi)
        obtain ⟨hmemj, hpairj⟩ := hinv rj (List.get?_mem hgj)
        constructor
        · intro s hs
          rcases List.mem_append.mp hs with hs | hs
          · obtain ⟨hlt, hsub⟩ := hmemj s hs
            exact ⟨hlt, Submap_mergeComps_left _ _ _ hsub⟩
          · obtain ⟨hlt, hsub⟩ := hmemi s hs
            exact ⟨hlt, Submap_mergeComps_right _ _ _ hsub⟩
        · intro s hs t' ht' hst
          have hnds : ∀ u, u < sysMaps.length →
              ((sysMaps.getD u []).map Prod.fst).Nodup := fun u hu =>
            hnd _ (getD_mem sysMaps u [] hu)
          rcases List.mem_append.mp hs with hs2 | hs2 <;>
            rcases List.mem_append.mp ht' with ht2 | ht2
          · exact hpairj s hs2 t' ht2 hst
          · obtain ⟨hlts, hsubs⟩ := hmemj s hs2
            obtain ⟨hltt, hsubt⟩ := hmemi t' ht2
            have h1 : systems_do_conflict (sysMaps.getD t' [])
                (sysMaps.getD s []) = false :=
              conflict_mono _ _ _ _ hsubt hsubs hconf
            rw [conflict_symm _ _ (hnds s hlts) (hnds t' hltt)]
            exact h1
          · obtain ⟨hlts, hsubs⟩ := hmemi s hs2
            obtain ⟨hltt, hsubt⟩ := hmemj t' ht2
            exact conflict_mono _ _ _ _ hsubs hsubt hconf
          · exact hpairi s hs2 t' ht2 hst

theorem loopRuns_inv (sysMaps : List CompMap) (fuel : ℕ)
    (runs : List ParallelSystems)
    (hnd : ∀ m ∈ sysMaps, (m.map Prod.fst).Nodup)
    (hinv : RunsInv sysMaps runs) :
    RunsInv sysMaps (loopRuns fuel runs) := by
  induction fuel generalizing runs with
  | zero => exact hinv
  | succ fuel ih =>
    rw [loopRuns]
    cases hstep : stepRuns runs with
    | none => exact hinv
    | some runs' => exact ih runs' (stepRuns_inv sysMaps runs runs' hnd hinv hstep)

theorem init_runs_inv (sysMaps : List CompMap)
    (hnd : ∀ m ∈ sysMaps, (m.map Prod.fst).Nodup) :
    RunsInv sysMaps (sysMaps.enum.map (fun p => ⟨[p.1], p.2⟩)) := by
  intro run hrun
  rcases List.mem_map.mp hrun with ⟨p, hp, rfl⟩
  have hget : sysMaps.get? p.1 = some p.2 := List.mem_enum_iff_get?.mp hp
  have hlt : p.1 < sysMaps.length := (List.get?_eq_some.mp hget).1
  have hgd : sysMaps.getD p.1 [] = p.2 := by
    rw [List.getD_eq_getD_get?, hget]
    rfl
  constructor
  · intro s hs
    rcases List.mem_singleton.mp hs with rfl
    refine ⟨hlt, ?_⟩
    rw [hgd]
    intro q hq
    exact ⟨q.2, alookup_of_mem_nodup p.2 q (hnd p.2 (List.get?_mem hget)) hq,
           fun hv => hv⟩
  · intro s hs t ht hst
    rcases List.mem_singleton.mp hs with rfl
    rcases List.mem_singleton.mp ht with rfl
    exact absurd rfl hst

/-! ### Claim C1 -/

/-- C1: every batch produced by `partition_parallel_systems` is
conflict-free — no two distinct member systems declare a common
component type with at least one `Write` (`systems_do_conflict` is
false on their declared access maps). -/
theorem partition_parallel_systems_no_conflict (sysMaps : List CompMap)
    (hnd : ∀ m ∈ sysMaps, (m.map Prod.fst).Nodup) :
    ∀ run ∈ partition_parallel_systems sysMaps, ∀ s ∈ run.systems,
      ∀ t ∈ run.systems, s ≠ t →
        systems_do_conflict (sysMaps.getD s []) (sysMaps.getD t []) = false := by
  intro run hrun
  rw [partition_parallel_systems] at hrun
  exact (loopRuns_inv sysMaps sysMaps.length _ hnd (init_runs_inv sysMaps hnd) run
    (List.mem_filter.mp hrun).1).2

/-- Witness for C1 on the repository's own five-system example
(`test_optimization`): writes to `{1}, {2,3}, {1,4}, {0,3}, {0,1,4}`. -/
theorem partition_parallel_systems_no_conflict_witness :
    (∀ m ∈ ([[(1, true)], [(2, true), (3, true)], [(1, true), (4, true)],
        [(0, true), (3, true)], [(0, true), (1, true), (4, true)]] : List CompMap),
      (m.map Prod.fst).Nodup) ∧
    (∀ run ∈ partition_parallel_systems
        [[(1, true)], [(2, true), (3, true)], [(1, true), (4, true)],
         [(0, true), (3, true)], [(0, true), (1, true), (4, true)]],
      ∀ s ∈ run.systems, ∀ t ∈ run.systems, s ≠ t →
        systems_do_conflict
          (([[(1, true)], [(2, true), (3, true)], [(1, true), (4, true)],
             [(0, true), (3, true)], [(0, true), (1, true), (4, true)]] :
              List CompMap).getD s [])
          (([[(1, true)], [(2, true), (3, true)], [(1, true), (4, true)],
             [(0, true), (3, true)], [(0, true), (1, true), (4, true)]] :
              List CompMap).getD t []) = false) :=
  ⟨by decide,
   partition_parallel_systems_no_conflict
     [[(1, true)], [(2, true), (3, true)], [(1, true), (4, true)],
      [(0, true), (3, true)], [(0, true), (1, true), (4, true)]] (by decide)⟩

/-- Cross-check of the embedding against the repository's
`test_optimization` assertion: the five systems partition into the
batches `[1, 4]`, `[2]`, `[3, 0]`. -/
theorem partition_matches_repo_test :
    (partition_parallel_systems
        [[(1, true)], [(2, true), (3, true)], [(1, true), (4, true)],
         [(0, true), (3, true)], [(0, true), (1, true), (4, true)]]).map
      ParallelSystems.systems = [[1, 4], [2], [3, 0]] := by decide

end EntityData
